import Mathlib

/-!
Verification of the Recurrence & Conflict Engine of the event-calendar
repository (`src/hooks/useEvents.ts`), against its specification.

The TypeScript code manipulates naive local calendar dates and times through
the date-fns library (`parseISO`, `format`, `addDays`, `addWeeks`,
`addMonths`, `addHours`, `Date#getDay`).  We embed dates as calendar triples
(year, month, day); JavaScript `Date` comparison of naive local dates is
exactly the lexicographic order on such triples, and the date-fns arithmetic
used by the code (add days / weeks / months with day-of-month clamping,
weekday lookup) is implemented below with standard Gregorian semantics.
Times of day ("HH:mm" strings) are embedded as minutes, combined date-times
as (date, minutes) pairs ordered lexicographically — equal to timestamp
order for the same-date comparisons the conflict detector performs.
-/

namespace EventCalendar

/-- A naive calendar date: the parsed form of a "YYYY-MM-DD" string. -/
structure DateT where
  y : Int
  m : Int
  d : Int
  deriving DecidableEq, Repr

/-- Gregorian leap year test. -/
def isLeap (y : Int) : Bool :=
  decide ((y % 4 = 0 ∧ y % 100 ≠ 0) ∨ y % 400 = 0)

/-- Number of days in a month of a given year. -/
def daysInMonth (y m : Int) : Int :=
  if m = 2 then (if isLeap y then 29 else 28)
  else if m = 4 ∨ m = 6 ∨ m = 9 ∨ m = 11 then 30
  else 31

/-- A structurally valid calendar date. -/
def ValidDate (c : DateT) : Prop :=
  1 ≤ c.m ∧ c.m ≤ 12 ∧ 1 ≤ c.d ∧ c.d ≤ daysInMonth c.y c.m

instance : DecidablePred ValidDate := fun c => by
  unfold ValidDate; infer_instance

/-- The calendar successor of a date (date-fns `addDays(date, 1)`). -/
def nextDay (c : DateT) : DateT :=
  if c.d < daysInMonth c.y c.m then ⟨c.y, c.m, c.d + 1⟩
  else if c.m < 12 then ⟨c.y, c.m + 1, 1⟩
  else ⟨c.y + 1, 1, 1⟩

/-- The calendar predecessor of a date (date-fns `addDays(date, -1)`). -/
def prevDay (c : DateT) : DateT :=
  if 1 < c.d then ⟨c.y, c.m, c.d - 1⟩
  else if 1 < c.m then ⟨c.y, c.m - 1, daysInMonth c.y (c.m - 1)⟩
  else ⟨c.y - 1, 12, 31⟩

/-- Add a nonnegative number of days (date-fns `addDays`). -/
def addDaysN (c : DateT) : Nat → DateT
  | 0 => c
  | n + 1 => nextDay (addDaysN c n)

/-- Subtract a number of days. -/
def subDaysN (c : DateT) : Nat → DateT
  | 0 => c
  | n + 1 => prevDay (subDaysN c n)

/-- date-fns `addDays` with a possibly negative amount. -/
def addDaysI (c : DateT) (i : Int) : DateT :=
  if 0 ≤ i then addDaysN c i.toNat else subDaysN c (-i).toNat

/-- date-fns `addMonths`: move the month index, clamping the day of month to
the length of the target month. -/
def addMonthsI (c : DateT) (k : Int) : DateT :=
  ⟨(12 * c.y + (c.m - 1) + k) / 12,
   (12 * c.y + (c.m - 1) + k) % 12 + 1,
   min c.d (daysInMonth ((12 * c.y + (c.m - 1) + k) / 12)
     ((12 * c.y + (c.m - 1) + k) % 12 + 1))⟩

/-- Per-month offsets of Sakamoto's weekday formula. -/
def monthOffset (m : Int) : Int :=
  if m = 1 then 0 else if m = 2 then 3 else if m = 3 then 2
  else if m = 4 then 5 else if m = 5 then 0 else if m = 6 then 3
  else if m = 7 then 5 else if m = 8 then 1 else if m = 9 then 4
  else if m = 10 then 6 else if m = 11 then 2 else 4

/-- The year as adjusted by Sakamoto's weekday formula. -/
def sakamotoYear (c : DateT) : Int := if c.m < 3 then c.y - 1 else c.y

/-- The weekday accumulator before reduction mod 7. -/
def dowAcc (c : DateT) : Int :=
  sakamotoYear c + sakamotoYear c / 4 - sakamotoYear c / 100
    + sakamotoYear c / 400 + monthOffset c.m + c.d

/-- JavaScript `Date#getDay`: the weekday of a date, 0 = Sunday .. 6 =
Saturday (Sakamoto's method). -/
def dayOfWeek (c : DateT) : Int := dowAcc c % 7

/-- Lexicographic strict order on dates: the order induced by comparing the
timestamps of the corresponding JavaScript `Date` values. -/
def dateLtP (a b : DateT) : Prop :=
  a.y < b.y ∨ (a.y = b.y ∧ (a.m < b.m ∨ (a.m = b.m ∧ a.d < b.d)))

/-- Lexicographic order on dates (`<=` on JavaScript `Date`s). -/
def dateLeP (a b : DateT) : Prop :=
  a.y < b.y ∨ (a.y = b.y ∧ (a.m < b.m ∨ (a.m = b.m ∧ a.d ≤ b.d)))

instance (a b : DateT) : Decidable (dateLtP a b) := by
  unfold dateLtP; infer_instance

instance (a b : DateT) : Decidable (dateLeP a b) := by
  unfold dateLeP; infer_instance

/-- Boolean date comparison, as evaluated by the code's `<=` tests. -/
def dateLe (a b : DateT) : Bool := decide (dateLeP a b)

/-- Boolean strict date comparison. -/
def dateLt (a b : DateT) : Bool := decide (dateLtP a b)

theorem dateLe_iff (a b : DateT) : dateLe a b = true ↔ dateLeP a b := by
  simp [dateLe]

theorem dateLt_iff (a b : DateT) : dateLt a b = true ↔ dateLtP a b := by
  simp [dateLt]

theorem dateLeP_refl (a : DateT) : dateLeP a a := by
  unfold dateLeP; omega

theorem dateLeP_trans {a b c : DateT} (h1 : dateLeP a b) (h2 : dateLeP b c) :
    dateLeP a c := by
  unfold dateLeP at *; omega

theorem dateLtP_le {a b : DateT} (h : dateLtP a b) : dateLeP a b := by
  unfold dateLtP dateLeP at *; omega

theorem dateLtP_trans_le {a b c : DateT} (h1 : dateLtP a b) (h2 : dateLeP b c) :
    dateLtP a c := by
  unfold dateLtP dateLeP at *; omega

theorem dateLeP_antisymm {a b : DateT} (h1 : dateLeP a b) (h2 : dateLeP b a) :
    a = b := by
  unfold dateLeP at *
  rcases a with ⟨ay, am, ad⟩; rcases b with ⟨by', bm, bd⟩
  simp_all
  omega

/-- A combined naive date-time: the parsed form of `"${date}T${time}"`,
with the time in minutes. -/
abbrev DT := DateT × Int

/-- Strict comparison of date-times (JavaScript `<` on `Date`s). -/
def dtLtP (a b : DT) : Prop := dateLtP a.1 b.1 ∨ (a.1 = b.1 ∧ a.2 < b.2)

/-- Comparison of date-times (JavaScript `<=` on `Date`s). -/
def dtLeP (a b : DT) : Prop := dateLtP a.1 b.1 ∨ (a.1 = b.1 ∧ a.2 ≤ b.2)

instance (a b : DT) : Decidable (dtLtP a b) := by
  unfold dtLtP; infer_instance

instance (a b : DT) : Decidable (dtLeP a b) := by
  unfold dtLeP; infer_instance

def dtLt (a b : DT) : Bool := decide (dtLtP a b)

def dtLe (a b : DT) : Bool := decide (dtLeP a b)

/-! ## The data model (`src/types/Event.ts`) -/

/-- The `type` field of a recurrence rule:
`'none' | 'daily' | 'weekly' | 'monthly' | 'custom'`. -/
inductive RecType where
  | rnone
  | daily
  | weekly
  | monthly
  | custom
  deriving DecidableEq, Repr

/-- `Event.recurrence`: `{type, interval?, daysOfWeek?, endDate?}`. -/
structure Recurrence where
  rtype : RecType
  interval : Option Int
  daysOfWeek : Option (List Int)
  endDate : Option DateT
  deriving DecidableEq, Repr

/-- An event record (master, standalone, or derived recurring occurrence).
`date` is the parsed form of the "YYYY-MM-DD" string; `time`/`endTime` are
"HH:mm" strings parsed to minutes (`none` = field absent). -/
structure Event where
  id : String
  title : String
  description : String
  date : DateT
  time : Option Int
  endTime : Option Int
  category : String
  color : String
  recurrence : Option Recurrence
  originalDate : Option DateT
  parentId : Option String
  isRecurringInstance : Bool
  deriving DecidableEq, Repr

/-- `event.recurrence && event.recurrence.type !== 'none'`. -/
def isRecurring (e : Event) : Bool :=
  match e.recurrence with
  | some r => decide (r.rtype ≠ RecType.rnone)
  | Option.none => false

/-- `interval || 1`: a missing or zero interval falls back to 1. -/
def effInterval (r : Recurrence) : Int :=
  match r.interval with
  | some i => if i = 0 then 1 else i
  | Option.none => 1

/-- Two-digit zero padding of `format(date, 'yyyy-MM-dd')`. -/
def pad2 (n : Int) : String :=
  if 0 ≤ n ∧ n < 10 then "0" ++ toString n else toString n

/-- Four-digit zero padding of the year in `format(date, 'yyyy-MM-dd')`. -/
def pad4 (n : Int) : String :=
  if 0 ≤ n ∧ n < 10 then "000" ++ toString n
  else if 0 ≤ n ∧ n < 100 then "00" ++ toString n
  else if 0 ≤ n ∧ n < 1000 then "0" ++ toString n
  else toString n

/-- `format(date, 'yyyy-MM-dd')`. -/
def fmtDate (c : DateT) : String :=
  pad4 c.y ++ "-" ++ pad2 c.m ++ "-" ++ pad2 c.d

/-- `id.includes('-')`. -/
def containsDash (s : String) : Bool := s.data.contains '-'

/-- Split a character list at every occurrence of a separator. -/
def splitCharsOn (sep : Char) : List Char → List Char → List (List Char)
  | [], acc => [acc.reverse]
  | c :: cs, acc =>
      if c = sep then acc.reverse :: splitCharsOn sep cs []
      else splitCharsOn sep cs (c :: acc)

/-- `id.split('-')`. -/
def splitDash (s : String) : List String :=
  (splitCharsOn '-' s.data []).map String.mk

/-- `parts.join('-')`. -/
def joinDash : List String → String
  | [] => ""
  | [x] => x
  | x :: xs => x ++ "-" ++ joinDash xs

/-- Numeric parse of a decimal string, 0 when malformed. -/
def strToNatD (s : String) : Int :=
  if s.data ≠ [] ∧ s.data.all Char.isDigit then
    s.data.foldl (fun n c => 10 * n + ((c.toNat : Int) - 48)) 0
  else 0

/-- The parse of a "YYYY-MM-DD" string back into a date (used by
`updateEvent` on the date part of an instance id). -/
def parseDateStr (s : String) : DateT :=
  match (splitDash s).map strToNatD with
  | [y, m, d] => ⟨y, m, d⟩
  | _ => ⟨0, 0, 0⟩

/-! ## The Recurrence Expander (`generateRecurringEvents`, lines 61-113) -/

/-- The derived occurrence record pushed at lines 75-82: the master's fields
with a composite id, the occurrence date, `originalDate`, `parentId` and the
`isRecurringInstance` marker. -/
def mkOccurrence (ev : Event) (c : DateT) : Event :=
  { ev with
    id := ev.id ++ "-" ++ fmtDate c
    date := c
    originalDate := some ev.date
    parentId := some ev.id
    isRecurringInstance := true }

/-- The inner scan of the weekly branch (lines 92-95): starting at a
candidate date, step forward one day at a time until the weekday is in
`daysOfWeek`.  The scan visits at most `fuel` candidates; seven suffice
exactly when the set contains a reachable weekday ordinal, and the
TypeScript loop runs forever otherwise (modelled by `none`). -/
def findNextDow : Nat → DateT → List Int → Option DateT
  | 0, _, _ => Option.none
  | k + 1, c, days =>
      if days.contains (dayOfWeek c) then some c
      else findNextDow k (nextDay c) days

/-- One result of the `switch` advancing `currentDate` (lines 85-109). -/
inductive StepRes where
  | next (c : DateT)
  | stop
  | hang
  deriving DecidableEq, Repr

/-- The `switch (event.recurrence.type)` advancing the cursor: `daily` and
`custom` add `interval || 1` days, `weekly` with a non-empty `daysOfWeek`
scans forward day by day, `weekly` otherwise adds `interval || 1` weeks,
`monthly` adds `interval || 1` months, and the `default` branch returns the
events collected so far (`stop`). -/
def advanceCursor (r : Recurrence) (c : DateT) : StepRes :=
  match r.rtype with
  | RecType.daily => StepRes.next (addDaysI c (effInterval r))
  | RecType.weekly =>
      match r.daysOfWeek with
      | some (d :: ds) =>
          match findNextDow 7 (nextDay c) (d :: ds) with
          | some nd => StepRes.next nd
          | Option.none => StepRes.hang
      | _ => StepRes.next (addDaysI c (7 * effInterval r))
  | RecType.monthly => StepRes.next (addMonthsI c (effInterval r))
  | RecType.custom => StepRes.next (addDaysI c (effInterval r))
  | RecType.rnone => StepRes.stop

/-- The `while (currentDate <= endRecurrence && currentDate <= endDate)`
loop of `generateRecurringEvents`, with explicit fuel: `none` models a loop
that does not finish within `fuel` iterations (and, for `hang`, the inner
scan never finding a matching weekday). -/
def genAux (ev : Event) (r : Recurrence) (endRec s e : DateT) :
    Nat → DateT → Option (List Event)
  | 0, _ => Option.none
  | fuel + 1, cursor =>
      if dateLe cursor endRec ∧ dateLe cursor e then
        match advanceCursor r cursor with
        | StepRes.next c' =>
            (genAux ev r endRec s e fuel c').map
              (fun rest =>
                (if dateLe s cursor then [mkOccurrence ev cursor] else []) ++ rest)
        | StepRes.stop =>
            some (if dateLe s cursor then [mkOccurrence ev cursor] else [])
        | StepRes.hang => Option.none
      else
        some []

/-- A rank that strictly increases along every forward calendar step; used
only to size the fuel given to `genAux`. -/
def rank (c : DateT) : Int := 372 * c.y + 31 * c.m + c.d

/-- Fuel sufficient for every terminating run of the expansion loop. -/
def genFuel (start e : DateT) : Nat := (rank e - rank start).toNat + 2

/-- `generateRecurringEvents(event, startDate, endDate)` (lines 61-113).
Returns `none` when the TypeScript loop would not terminate. -/
def generateRecurringEvents (ev : Event) (s e : DateT) : Option (List Event) :=
  match ev.recurrence with
  | Option.none => some [ev]
  | some r =>
      if r.rtype = RecType.rnone then some [ev]
      else
        genAux ev r (r.endDate.getD e) s e (genFuel ev.date e) ev.date

/-! ## Queries (`getEventsForDateRange` / `getEventsForDate`, lines 115-139) -/

/-- One iteration of the `events.forEach` body of `getEventsForDateRange`
(lines 118-132): an event whose date falls inside the window is pushed
directly when non-recurring and expanded when recurring; a recurring event
outside the window is still expanded; a non-recurring event outside the
window contributes nothing. -/
def collectHere (s e : DateT) (ev : Event) : Option (List Event) :=
  if dateLe s ev.date ∧ dateLe ev.date e then
    if isRecurring ev then generateRecurringEvents ev s e else some [ev]
  else
    if isRecurring ev then generateRecurringEvents ev s e else some []

/-- The `events.forEach` loop of `getEventsForDateRange`, accumulating the
pushes in iteration order. -/
def collectEvents (s e : DateT) : List Event → Option (List Event)
  | [] => some []
  | ev :: rest =>
      (collectHere s e ev).bind fun here =>
        (collectEvents s e rest).map fun tail => here ++ tail

/-- `getEventsForDateRange(startDate, endDate)` over a given store. -/
def getEventsForDateRange (store : List Event) (s e : DateT) :
    Option (List Event) :=
  collectEvents s e store

/-- `getEventsForDate(date)`: the range query with a one-day window. -/
def getEventsForDate (store : List Event) (d : DateT) : Option (List Event) :=
  getEventsForDateRange store d d

/-! ## The Conflict Detector (`checkConflicts`, lines 267-306) -/

/-- The four-case overlap disjunction of lines 293-302, on the parsed
date-times of the candidate (`cS`,`cE`) and of the compared event
(`oS`,`oE`). -/
def hasOverlap (cS cE oS oE : DT) : Bool :=
  (dtLe oS cS && dtLt cS oE) ||
  (dtLt oS cE && dtLe cE oE) ||
  (dtLe cS oS && dtLe oE cE) ||
  decide (cS = oS)

/-- The implied end time in minutes: `endTime` if present, else the start
time plus one hour (`addHours(start, 1)`). -/
def impliedEndMin (time : Int) (endTime : Option Int) : Int :=
  match endTime with
  | some z => z
  | Option.none => time + 60

/-- The filter body of `checkConflicts` (lines 271-305): skip the candidate
itself by id, treat a missing time on either side as an all-day conflict,
otherwise evaluate the four-case overlap on the parsed date-times. -/
def conflictPred (cand e : Event) : Bool :=
  if e.id = cand.id then false
  else
    match e.time, cand.time with
    | some et, some ct =>
        let oS : DT := (e.date, et)
        let cS : DT := (cand.date, ct)
        let oE : DT := (e.date, impliedEndMin et e.endTime)
        let cE : DT := (cand.date, impliedEndMin ct cand.endTime)
        hasOverlap cS cE oS oE
    | _, _ => true

/-- `checkConflicts(event)`: filter the events on the candidate's date by
the overlap predicate.  `none` when materializing that day's events does
not terminate. -/
def checkConflicts (store : List Event) (cand : Event) : Option (List Event) :=
  (getEventsForDate store cand.date).map (List.filter (conflictPred cand))

/-! ## Mutations (lines 141-265) -/

/-- A `Partial<Event> & {updateMode?}` argument: fields present in the
object override the master's on spread. -/
structure EventPatch where
  id : Option String := Option.none
  title : Option String := Option.none
  description : Option String := Option.none
  date : Option DateT := Option.none
  time : Option (Option Int) := Option.none
  endTime : Option (Option Int) := Option.none
  category : Option String := Option.none
  color : Option String := Option.none
  recurrence : Option (Option Recurrence) := Option.none
  originalDate : Option (Option DateT) := Option.none
  parentId : Option (Option String) := Option.none
  isRecurringInstance : Option Bool := Option.none
  updateMode : Option Bool := Option.none  -- `some true` = 'single', `some false` = 'all'
  deriving Repr

/-- The spread `{...event, ...updates}`. -/
def applyPatch (e : Event) (p : EventPatch) : Event :=
  { id := p.id.getD e.id
    title := p.title.getD e.title
    description := p.description.getD e.description
    date := p.date.getD e.date
    time := p.time.getD e.time
    endTime := p.endTime.getD e.endTime
    category := p.category.getD e.category
    color := p.color.getD e.color
    recurrence := p.recurrence.getD e.recurrence
    originalDate := p.originalDate.getD e.originalDate
    parentId := p.parentId.getD e.parentId
    isRecurringInstance := p.isRecurringInstance.getD e.isRecurringInstance }

/-- The temporary candidate of `addEvent` (lines 143-146): the payload with
a `'temp-' + Date.now()` id. -/
def addTempEvent (data : Event) (tempN : String) : Event :=
  { data with id := "temp-" ++ tempN }

/-- `addEvent(event)` (lines 141-171).  `tempN` and `newN` are the two
`Date.now()` readings.  The post-state equals the pre-state when the call
throws; both the recurring and the non-recurring branch append the single
new event.  `none` models a conflict check that does not terminate. -/
def runAddEvent (store : List Event) (data : Event) (tempN newN : String) :
    Option (List Event × Except String Event) :=
  (checkConflicts store (addTempEvent data tempN)).map fun conflicts =>
    if conflicts.length > 0 then
      (store, Except.error "Cannot create event due to conflicts")
    else
      (store ++ [{ data with id := newN }], Except.ok { data with id := newN })

/-- `id.includes('-') ? id.split('-')[0] : id`. -/
def parentIdOf (id : String) : String :=
  if containsDash id then ((splitDash id).headD id) else id

/-- `id.split('-').slice(1).join('-')`: the date part of an instance id. -/
def instanceDatePart (id : String) : String :=
  joinDash ((splitDash id).drop 1)

/-- The temporary candidate of `updateEvent` (lines 199-203):
`{...masterEvent, ...updates, id: id}`. -/
def updTempEvent (master : Event) (p : EventPatch) (id : String) : Event :=
  { applyPatch master p with id := id }

/-- `updateEvent(id, updates)` (lines 173-241).  The store stands for both
the in-memory events and their localStorage mirror, so the master lookup is
a single `find`.  `newN` is the `Date.now()` reading used for the detached
standalone event in single-occurrence mode. -/
def runUpdateEvent (store : List Event) (id : String) (p : EventPatch)
    (newN : String) : Option (List Event × Except String Unit) :=
  match store.find? (fun e => e.id = parentIdOf id) with
  | Option.none => some (store, Except.error "Event not found")
  | some master =>
      (checkConflicts store (updTempEvent master p id)).map fun conflicts =>
        if conflicts.length > 0 then
          (store, Except.error "Cannot update event due to conflicts")
        else if containsDash id ∧ p.updateMode = some true then
          (store ++
            [{ applyPatch master p with
               id := newN
               date := parseDateStr (instanceDatePart id)
               recurrence := Option.none
               isRecurringInstance := false
               parentId := Option.none }], Except.ok ())
        else
          (store.map
            (fun e => if e.id = parentIdOf id then applyPatch master p else e),
           Except.ok ())

/-- `deleteEvent(id, updateMode)` (lines 243-259): deleting a single
occurrence of a recurring instance only logs and returns; otherwise the
master (or standalone) record is filtered out.  `mode = some true` means
`'single'`. -/
def runDeleteEvent (store : List Event) (id : String) (mode : Option Bool) :
    List Event :=
  if containsDash id ∧ mode = some true then
    store
  else
    store.filter (fun e => ¬ e.id = parentIdOf id)

/-- `moveEvent(id, newDate)` (lines 261-265): a date-only map over the
store, with no conflict check. -/
def moveEvent (store : List Event) (id : String) (newDate : DateT) :
    List Event :=
  store.map (fun e => if e.id = id then { e with date := newDate } else e)

/-! ## Specification-side definitions for refinement comparisons -/

/-- Modelled from the spec: the overlap predicate on half-open intervals,
`candidateStart < otherEnd AND candidateEnd > otherStart`, over times on
one calendar date. -/
def halfOpenOverlap (cS cE oS oE : Int) : Bool :=
  decide (cS < oE ∧ cE > oS)

/-! ## Sample events used to witness theorems on concrete inputs -/

/-- A concrete event with the given id, date, times and recurrence. -/
def mkEv (id : String) (date : DateT) (t et : Option Int)
    (rec : Option Recurrence) : Event :=
  { id := id, title := "t", description := "", date := date, time := t,
    endTime := et, category := "work", color := "#ffffff", recurrence := rec,
    originalDate := Option.none, parentId := Option.none,
    isRecurringInstance := false }

/-- A 10:00-11:00 event on 2024-02-01. -/
def evTenEleven : Event := mkEv "a" ⟨2024, 2, 1⟩ (some 600) (some 660) Option.none

/-- A 10:30 event (no end time) on 2024-02-01. -/
def evTenThirty : Event := mkEv "b" ⟨2024, 2, 1⟩ (some 630) Option.none Option.none

/-! ## Claim C1: the four-case disjunction is the half-open overlap test -/

theorem dateLtP_irrefl (d : DateT) : ¬ dateLtP d d := by
  unfold dateLtP; omega

/-- On a single date, the four-case disjunction agrees with the half-open
overlap predicate whenever both intervals are well-formed. -/
theorem hasOverlap_same_date (d : DateT) (cs ce os oe : Int)
    (hc : cs < ce) (ho : os < oe) :
    hasOverlap (d, cs) (d, ce) (d, os) (d, oe) = halfOpenOverlap cs ce os oe := by
  rw [Bool.eq_iff_iff]
  unfold hasOverlap halfOpenOverlap dtLt dtLe dtLtP dtLeP dateLtP
  simp [Prod.ext_iff]
  omega

/-- Claim C1: for any two events on the same calendar date that both carry a
time, with interval ends implied as `endTime` when present and `time` plus
one hour otherwise, and with both implied intervals well-formed
(start strictly before end), the four-case overlap disjunction evaluated
inside `checkConflicts` coincides with the half-open overlap predicate
`candidateStart < otherEnd AND candidateEnd > otherStart`. -/
theorem claim1_overlap_refines_halfopen (cand e : Event) (ct et : Int)
    (hct : cand.time = some ct) (het : e.time = some et)
    (hdate : e.date = cand.date)
    (hwc : ct < impliedEndMin ct cand.endTime)
    (hwe : et < impliedEndMin et e.endTime) :
    hasOverlap (cand.date, ct) (cand.date, impliedEndMin ct cand.endTime)
        (e.date, et) (e.date, impliedEndMin et e.endTime)
      = halfOpenOverlap ct (impliedEndMin ct cand.endTime)
          et (impliedEndMin et e.endTime) := by
  rw [hdate]
  exact hasOverlap_same_date cand.date ct (impliedEndMin ct cand.endTime)
    et (impliedEndMin et e.endTime) hwc hwe

/-- Witness for C1 at the spec's default-duration scenario: a 09:00 event
with no end time against a 09:30 event with no end time. -/
theorem claim1_overlap_refines_halfopen_witness :
    hasOverlap (⟨2024, 2, 1⟩, 570) (⟨2024, 2, 1⟩, impliedEndMin 570 Option.none)
        (⟨2024, 2, 1⟩, 540) (⟨2024, 2, 1⟩, impliedEndMin 540 Option.none)
      = halfOpenOverlap 570 (impliedEndMin 570 Option.none)
          540 (impliedEndMin 540 Option.none) :=
  claim1_overlap_refines_halfopen
    (mkEv "y" ⟨2024, 2, 1⟩ (some 570) Option.none Option.none)
    (mkEv "x" ⟨2024, 2, 1⟩ (some 540) Option.none Option.none)
    570 540 rfl rfl rfl (by decide) (by decide)

/-! ## Claim C7: the candidate never appears in its own conflict result -/

theorem conflictPred_ne_id {cand x : Event} (h : conflictPred cand x = true) :
    x.id ≠ cand.id := by
  intro hid
  unfold conflictPred at h
  simp [hid] at h

/-- Claim C7: no element of `checkConflicts(candidate)` has an id equal to
the candidate's id. -/
theorem claim7_no_self_conflict (store : List Event) (cand : Event)
    (l : List Event) (h : checkConflicts store cand = some l) :
    ∀ x ∈ l, x.id ≠ cand.id := by
  intro x hx
  unfold checkConflicts at h
  rcases Option.map_eq_some'.mp h with ⟨dl, _, rfl⟩
  exact conflictPred_ne_id (List.of_mem_filter hx)

/-- Witness for C7: a concrete conflicting pair. -/
theorem claim7_no_self_conflict_witness :
    checkConflicts [evTenEleven, evTenThirty] evTenThirty = some [evTenEleven] ∧
    ∀ x ∈ [evTenEleven], x.id ≠ evTenThirty.id :=
  ⟨by decide,
   claim7_no_self_conflict [evTenEleven, evTenThirty] evTenThirty [evTenEleven]
     (by decide)⟩

/-! ## Claim C8: moveEvent is a date-only, conflict-free frame update -/

/-- Claim C8: `moveEvent` preserves the length and order of the store,
rewrites only the `date` field of the events whose id matches (to the new
date), leaves every other field and every non-matching event unchanged, and
is the identity when no stored event has the id.  It is total for every
store — including stores where the move creates overlaps — so no conflict
check restricts it. -/
theorem claim8_moveEvent_frame (store : List Event) (id : String) (nd : DateT) :
    (moveEvent store id nd).length = store.length ∧
    (∀ (i : Nat) (e : Event), store[i]? = some e →
      ∃ e', (moveEvent store id nd)[i]? = some e' ∧
        e'.id = e.id ∧ e'.title = e.title ∧ e'.description = e.description ∧
        e'.time = e.time ∧ e'.endTime = e.endTime ∧
        e'.category = e.category ∧ e'.color = e.color ∧
        e'.recurrence = e.recurrence ∧ e'.originalDate = e.originalDate ∧
        e'.parentId = e.parentId ∧
        e'.isRecurringInstance = e.isRecurringInstance ∧
        e'.date = (if e.id = id then nd else e.date)) ∧
    ((∀ e ∈ store, e.id ≠ id) → moveEvent store id nd = store) := by
  refine ⟨List.length_map _ _, ?_, ?_⟩
  · intro i e he
    refine ⟨(fun e => if e.id = id then { e with date := nd } else e) e, ?_, ?_⟩
    · unfold moveEvent
      rw [List.getElem?_map, he, Option.map_some']
    · by_cases hid : e.id = id <;> simp [hid]
  · intro hnone
    unfold moveEvent
    have : ∀ e ∈ store, (if e.id = id then { e with date := nd } else e) = e := by
      intro e he
      simp [hnone e he]
    rw [List.map_congr_left this]
    exact List.map_id' store

/-- Witness for C8 on a one-event store whose id matches. -/
theorem claim8_moveEvent_frame_witness :
    (moveEvent [evTenEleven] "a" ⟨2024, 3, 5⟩).length = 1 ∧
    (∃ e', (moveEvent [evTenEleven] "a" ⟨2024, 3, 5⟩)[0]? = some e' ∧
      e'.id = evTenEleven.id ∧ e'.date = ⟨2024, 3, 5⟩) := by
  obtain ⟨hlen, hidx, -⟩ := claim8_moveEvent_frame [evTenEleven] "a" ⟨2024, 3, 5⟩
  obtain ⟨e', h1, h2, -, -, -, -, -, -, -, -, -, -, h3⟩ :=
    hidx 0 evTenEleven rfl
  exact ⟨hlen, e', h1, h2, by simpa using h3⟩

/-! ## Claim C3: single-occurrence delete does not suppress the date -/

/-- A daily recurring master anchored at 2024-01-01. -/
def dailyMaster : Event :=
  mkEv "7" ⟨2024, 1, 1⟩ (some 540) Option.none
    (some ⟨RecType.daily, some 1, Option.none, Option.none⟩)

/-- Claim C3 (divergence of the code from the claim): deleting the single
occurrence `7-2024-01-02` of the daily master leaves the store unchanged —
no exception is recorded — and a subsequent `getEventsForDate` on
2024-01-02 still yields that occurrence. -/
theorem claim3_delete_single_is_noop :
    runDeleteEvent [dailyMaster] "7-2024-01-02" (some true) = [dailyMaster] ∧
    (getEventsForDate [dailyMaster] ⟨2024, 1, 2⟩).map (List.map Event.id)
      = some ["7-2024-01-02"] := by
  constructor
  · rfl
  · rfl

/-! ## Claim C6: conflict symmetry -/

/-- A 10:00 event whose `endTime` parses before its `time` (00:00). -/
def evInverted : Event := mkEv "a" ⟨2024, 2, 1⟩ (some 600) (some 0) Option.none

/-- A 05:00-06:00 event on the same date. -/
def evMorning : Event := mkEv "b" ⟨2024, 2, 1⟩ (some 300) (some 360) Option.none

/-- Counterexample to C6 as stated: with an inverted interval
(`endTime` 00:00 before `time` 10:00) the evaluation is asymmetric — the
inverted event is in the conflict result computed for the 05:00-06:00
event, but not conversely. -/
theorem claim6_counterexample :
    checkConflicts [evInverted, evMorning] evMorning = some [evInverted] ∧
    checkConflicts [evInverted, evMorning] evInverted = some [] := by
  constructor
  · rfl
  · rfl

/-- An event whose implied interval is well-formed: when both `time` and
`endTime` are present, the start is strictly before the end. -/
def WellFormedEvent (e : Event) : Prop :=
  ∀ t z, e.time = some t → e.endTime = some z → t < z

theorem wellFormed_implied {e : Event} {t : Int} (hw : WellFormedEvent e)
    (ht : e.time = some t) : t < impliedEndMin t e.endTime := by
  cases hz : e.endTime with
  | none => simp [impliedEndMin, hz]
  | some z =>
      simp only [impliedEndMin, hz]
      exact hw t z ht hz

/-- The conflict filter body is symmetric between two same-date events with
well-formed implied intervals. -/
theorem conflictPred_symm {A B : Event} (hdate : A.date = B.date)
    (hwA : WellFormedEvent A) (hwB : WellFormedEvent B) :
    conflictPred B A = conflictPred A B := by
  unfold conflictPred
  by_cases hid : A.id = B.id
  · simp [hid]
  · have hid' : ¬ B.id = A.id := fun h => hid h.symm
    rw [if_neg hid, if_neg hid']
    cases hat : A.time with
    | none =>
        cases hbt : B.time <;> rfl
    | some ta =>
        cases hbt : B.time with
        | none => rfl
        | some tb =>
            simp only
            rw [hdate]
            rw [hasOverlap_same_date B.date tb (impliedEndMin tb B.endTime)
                  ta (impliedEndMin ta A.endTime)
                  (wellFormed_implied hwB hbt) (wellFormed_implied hwA hat),
                hasOverlap_same_date B.date ta (impliedEndMin ta A.endTime)
                  tb (impliedEndMin tb B.endTime)
                  (wellFormed_implied hwA hat) (wellFormed_implied hwB hbt)]
            unfold halfOpenOverlap
            rw [Bool.eq_iff_iff]
            simp
            omega

/-- Splitting a successful collection over a cons cell. -/
theorem collectEvents_cons_some {s t : DateT} {ev : Event}
    {rest : List Event} {l : List Event}
    (h : collectEvents s t (ev :: rest) = some l) :
    ∃ here tail, collectHere s t ev = some here ∧
      collectEvents s t rest = some tail ∧ l = here ++ tail := by
  unfold collectEvents at h
  cases hhere : collectHere s t ev with
  | none => rw [hhere] at h; simp at h
  | some here =>
      rw [hhere] at h
      cases htail : collectEvents s t rest with
      | none => rw [htail] at h; simp at h
      | some tl =>
          rw [htail] at h
          simp only [Option.some_bind, Option.map_some', Option.some.injEq] at h
          exact ⟨here, tl, rfl, rfl, h.symm⟩

/-- A stored non-recurring event whose date lies in the window appears in
the collected result. -/
theorem mem_collectEvents_of_nonrec {store : List Event} {s t : DateT}
    {e : Event} {l : List Event} (he : e ∈ store)
    (hnr : isRecurring e = false) (h1 : dateLeP s e.date)
    (h2 : dateLeP e.date t) (hl : collectEvents s t store = some l) :
    e ∈ l := by
  induction store generalizing l with
  | nil => cases he
  | cons ev rest ih =>
      obtain ⟨here, tail, hhere, htail, rfl⟩ := collectEvents_cons_some hl
      rcases List.mem_cons.mp he with rfl | hmem
      · have hcond : (dateLe s e.date ∧ dateLe e.date t) := by
          rw [dateLe_iff, dateLe_iff]; exact ⟨h1, h2⟩
        unfold collectHere at hhere
        rw [if_pos hcond, hnr, if_neg (by simp)] at hhere
        simp only [Option.some.injEq] at hhere
        subst hhere
        exact List.mem_append_left _ (List.mem_singleton_self e)
      · exact List.mem_append_right _ (ih hmem htail)

/-- Claim C6, amended: the conflict predicate is symmetric for two stored
**non-recurring** events on the same calendar date whose implied intervals
are **well-formed** (whenever both `time` and `endTime` are present, the
start is strictly before the end): A is in the conflict result computed for
B if and only if B is in the conflict result computed for A, in both the
timed-overlap branch and the missing-time all-day branch. -/
theorem claim6_conflict_symmetry (store : List Event) (A B : Event)
    (hA : A ∈ store) (hB : B ∈ store)
    (hAnr : isRecurring A = false) (hBnr : isRecurring B = false)
    (hdate : A.date = B.date)
    (hwA : WellFormedEvent A) (hwB : WellFormedEvent B) :
    (∃ l, checkConflicts store B = some l ∧ A ∈ l) ↔
    (∃ l, checkConflicts store A = some l ∧ B ∈ l) := by
  unfold checkConflicts getEventsForDate getEventsForDateRange
  rw [hdate]
  cases hday : collectEvents B.date B.date store with
  | none =>
      simp [hday]
  | some dl =>
      simp only [hday, Option.map_some', Option.some.injEq]
      have hAdl : A ∈ dl :=
        mem_collectEvents_of_nonrec hA hAnr (hdate ▸ dateLeP_refl A.date)
          (hdate ▸ dateLeP_refl A.date) hday
      have hBdl : B ∈ dl :=
        mem_collectEvents_of_nonrec hB hBnr (dateLeP_refl B.date)
          (dateLeP_refl B.date) hday
      constructor
      · rintro ⟨l, rfl, hmem⟩
        refine ⟨_, rfl, ?_⟩
        rw [List.mem_filter]
        have hpred := (List.mem_filter.mp hmem).2
        rw [conflictPred_symm hdate hwA hwB] at hpred
        exact ⟨hBdl, hpred⟩
      · rintro ⟨l, rfl, hmem⟩
        refine ⟨_, rfl, ?_⟩
        rw [List.mem_filter]
        have hpred := (List.mem_filter.mp hmem).2
        rw [← conflictPred_symm hdate hwA hwB] at hpred
        exact ⟨hAdl, hpred⟩

/-- Witness for the amended C6 on a concrete well-formed pair. -/
theorem claim6_conflict_symmetry_witness :
    (∃ l, checkConflicts [evTenEleven, evTenThirty] evTenThirty = some l ∧
        evTenEleven ∈ l) ↔
    (∃ l, checkConflicts [evTenEleven, evTenThirty] evTenEleven = some l ∧
        evTenThirty ∈ l) :=
  claim6_conflict_symmetry [evTenEleven, evTenThirty] evTenEleven evTenThirty
    (by decide) (by decide) (by decide) (by decide) rfl
    (by intro t z ht hz; simp [evTenEleven, mkEv] at ht hz; omega)
    (by intro t z ht hz; simp [evTenThirty, mkEv] at hz)

/-! ## Claim C2: conflicting mutations fail closed -/

/-- Claim C2: whenever the conflict check on the candidate yields a
non-empty list, `addEvent` fails with the conflict error and returns the
store unchanged, and `updateEvent` (whatever its update mode, which is
chosen only after the check) fails with its conflict error and returns the
store unchanged; whenever the conflict check yields the empty list,
`addEvent` appends exactly the one new event. -/
theorem claim2_conflicts_fail_closed (store1 store2 : List Event)
    (data : Event) (tempN newN tempN2 newN2 updN id : String)
    (p : EventPatch) (m c d : Event) (cs ds : List Event)
    (h1 : checkConflicts store1 (addTempEvent data tempN) = some (c :: cs))
    (h2 : checkConflicts store2 (addTempEvent data tempN2) = some [])
    (h3 : store1.find? (fun e => e.id = parentIdOf id) = some m)
    (h4 : checkConflicts store1 (updTempEvent m p id) = some (d :: ds)) :
    runAddEvent store1 data tempN newN
      = some (store1, Except.error "Cannot create event due to conflicts") ∧
    runAddEvent store2 data tempN2 newN2
      = some (store2 ++ [{ data with id := newN2 }],
              Except.ok { data with id := newN2 }) ∧
    runUpdateEvent store1 id p updN
      = some (store1, Except.error "Cannot update event due to conflicts") := by
  refine ⟨?_, ?_, ?_⟩
  · unfold runAddEvent
    rw [h1]
    simp
  · unfold runAddEvent
    rw [h2]
    simp
  · unfold runUpdateEvent
    rw [h3]
    dsimp only
    rw [h4]
    simp

/-- A second 10:15-12:00 event used to build conflicting stores. -/
def evOverlapData : Event :=
  mkEv "payload" ⟨2024, 2, 1⟩ (some 615) (some 720) Option.none

/-- Witness for C2: a two-event conflicting store and the empty store. -/
theorem claim2_conflicts_fail_closed_witness :
    runAddEvent [evTenEleven, evTenThirty] evOverlapData "99" "100"
      = some ([evTenEleven, evTenThirty],
              Except.error "Cannot create event due to conflicts") ∧
    runAddEvent [] evOverlapData "98" "101"
      = some ([{ evOverlapData with id := "101" }],
              Except.ok { evOverlapData with id := "101" }) ∧
    runUpdateEvent [evTenEleven, evTenThirty] "a" {} "102"
      = some ([evTenEleven, evTenThirty],
              Except.error "Cannot update event due to conflicts") := by
  have h := claim2_conflicts_fail_closed [evTenEleven, evTenThirty] []
    evOverlapData "99" "100" "98" "101" "102" "a" {} evTenEleven
    evTenEleven evTenThirty [evTenThirty] []
    (by decide) (by decide) (by decide) (by decide)
  simpa using h

/-! ## Claim C10: shape of query results -/

/-- The emission of one loop iteration. -/
def emitAt (ev : Event) (s cursor : DateT) : List Event :=
  if dateLe s cursor then [mkOccurrence ev cursor] else []

theorem genAux_zero (ev : Event) (r : Recurrence) (endRec s e cursor : DateT) :
    genAux ev r endRec s e 0 cursor = Option.none := rfl

theorem genAux_exit {endRec e cursor : DateT} (ev : Event) (r : Recurrence)
    (s : DateT) (fuel : Nat)
    (hg : ¬ (dateLe cursor endRec ∧ dateLe cursor e)) :
    genAux ev r endRec s e (fuel + 1) cursor = some [] := by
  unfold genAux
  rw [if_neg hg]

theorem genAux_next {r : Recurrence} {endRec e cursor c' : DateT} (ev : Event)
    (s : DateT) (fuel : Nat)
    (hg : dateLe cursor endRec ∧ dateLe cursor e)
    (hadv : advanceCursor r cursor = StepRes.next c') :
    genAux ev r endRec s e (fuel + 1) cursor =
      (genAux ev r endRec s e fuel c').map
        (fun rest => emitAt ev s cursor ++ rest) := by
  conv_lhs => unfold genAux
  rw [if_pos hg, hadv]
  rfl

theorem genAux_stop {r : Recurrence} {endRec e cursor : DateT} (ev : Event)
    (s : DateT) (fuel : Nat)
    (hg : dateLe cursor endRec ∧ dateLe cursor e)
    (hadv : advanceCursor r cursor = StepRes.stop) :
    genAux ev r endRec s e (fuel + 1) cursor = some (emitAt ev s cursor) := by
  conv_lhs => unfold genAux
  rw [if_pos hg, hadv]
  rfl

theorem genAux_hang {r : Recurrence} {endRec e cursor : DateT} (ev : Event)
    (s : DateT) (fuel : Nat)
    (hg : dateLe cursor endRec ∧ dateLe cursor e)
    (hadv : advanceCursor r cursor = StepRes.hang) :
    genAux ev r endRec s e (fuel + 1) cursor = Option.none := by
  conv_lhs => unfold genAux
  rw [if_pos hg, hadv]

theorem mem_emitAt {ev : Event} {s cursor : DateT} {x : Event}
    (hx : x ∈ emitAt ev s cursor) :
    x = mkOccurrence ev cursor ∧ dateLeP s cursor := by
  unfold emitAt at hx
  by_cases he : dateLe s cursor = true
  · rw [if_pos he] at hx
    exact ⟨List.mem_singleton.mp hx, (dateLe_iff s cursor).mp he⟩
  · rw [if_neg he] at hx
    cases hx

/-- Unfolding of `generateRecurringEvents` on a recurring master. -/
theorem generateRecurringEvents_eq_genAux {ev : Event} {r : Recurrence}
    (s e : DateT) (hr : ev.recurrence = some r)
    (hne : r.rtype ≠ RecType.rnone) :
    generateRecurringEvents ev s e =
      genAux ev r (r.endDate.getD e) s e (genFuel ev.date e) ev.date := by
  unfold generateRecurringEvents
  rw [hr]
  simp only [if_neg hne]

/-- A recurring event has a rule of a type other than `none`. -/
theorem isRecurring_elim {ev : Event} (hrec : isRecurring ev = true) :
    ∃ r, ev.recurrence = some r ∧ r.rtype ≠ RecType.rnone := by
  unfold isRecurring at hrec
  cases hr : ev.recurrence with
  | none => rw [hr] at hrec; cases hrec
  | some r =>
      rw [hr] at hrec
      simp only [decide_eq_true_eq] at hrec
      exact ⟨r, rfl, hrec⟩

/-- Every event emitted by the expansion loop is a derived occurrence of
the master. -/
theorem genAux_shape {ev : Event} {r : Recurrence} {endRec s e : DateT}
    {fuel : Nat} {cursor : DateT} {l : List Event}
    (h : genAux ev r endRec s e fuel cursor = some l) :
    ∀ x ∈ l, ∃ c, x = mkOccurrence ev c := by
  induction fuel generalizing cursor l with
  | zero => rw [genAux_zero] at h; cases h
  | succ fuel ih =>
      by_cases hg : (dateLe cursor endRec ∧ dateLe cursor e)
      · cases hadv : advanceCursor r cursor with
        | next c' =>
            rw [genAux_next ev s fuel hg hadv] at h
            cases hrec : genAux ev r endRec s e fuel c' with
            | none => rw [hrec] at h; cases h
            | some rest =>
                rw [hrec] at h
                simp only [Option.map_some', Option.some.injEq] at h
                subst h
                intro x hx
                rcases List.mem_append.mp hx with hx | hx
                · exact ⟨cursor, (mem_emitAt hx).1⟩
                · exact ih hrec x hx
        | stop =>
            rw [genAux_stop ev s fuel hg hadv] at h
            simp only [Option.some.injEq] at h
            subst h
            intro x hx
            exact ⟨cursor, (mem_emitAt hx).1⟩
        | hang => rw [genAux_hang ev s fuel hg hadv] at h; cases h
      · rw [genAux_exit ev r s fuel hg] at h
        simp only [Option.some.injEq] at h
        subst h
        intro x hx
        cases hx

/-- A successful expansion of a recurring master yields only derived
occurrences. -/
theorem generateRecurringEvents_shape {ev : Event} {s e : DateT}
    {l : List Event} (hrec : isRecurring ev = true)
    (h : generateRecurringEvents ev s e = some l) :
    ∀ x ∈ l, ∃ c, x = mkOccurrence ev c := by
  obtain ⟨r, hr, hne⟩ := isRecurring_elim hrec
  rw [generateRecurringEvents_eq_genAux s e hr hne] at h
  exact genAux_shape h

/-- Shape of one `forEach` iteration's contribution. -/
theorem collectHere_shape {s e : DateT} {ev : Event} {here : List Event}
    (h : collectHere s e ev = some here) :
    ∀ x ∈ here, (isRecurring ev = false ∧ x = ev) ∨
      (isRecurring ev = true ∧ ∃ c, x = mkOccurrence ev c) := by
  unfold collectHere at h
  by_cases hrec : isRecurring ev = true
  · rw [if_pos hrec, if_pos hrec, ite_self] at h
    intro x hx
    exact Or.inr ⟨hrec, generateRecurringEvents_shape hrec h x hx⟩
  · have hrec' : isRecurring ev = false := by
      cases hb : isRecurring ev
      · rfl
      · exact absurd hb hrec
    rw [if_neg hrec, if_neg hrec] at h
    by_cases hw : (dateLe s ev.date ∧ dateLe ev.date e)
    · rw [if_pos hw] at h
      simp only [Option.some.injEq] at h
      subst h
      intro x hx
      rcases List.mem_singleton.mp hx with rfl
      exact Or.inl ⟨hrec', rfl⟩
    · rw [if_neg hw] at h
      simp only [Option.some.injEq] at h
      subst h
      intro x hx
      cases hx

/-- Shape of every element of a collected query result. -/
theorem collectEvents_shape {store : List Event} {s e : DateT}
    {l : List Event} (h : collectEvents s e store = some l) :
    ∀ x ∈ l, ∃ ev, ev ∈ store ∧
      ((isRecurring ev = false ∧ x = ev) ∨
       (isRecurring ev = true ∧ ∃ c, x = mkOccurrence ev c)) := by
  induction store generalizing l with
  | nil =>
      unfold collectEvents at h
      simp only [Option.some.injEq] at h
      subst h
      intro x hx
      cases hx
  | cons ev rest ih =>
      obtain ⟨here, tail, hhere, htail, rfl⟩ := collectEvents_cons_some h
      intro x hx
      rcases List.mem_append.mp hx with hx | hx
      · exact ⟨ev, List.mem_cons_self ev rest, collectHere_shape hhere x hx⟩
      · obtain ⟨ev', hev', hshape⟩ := ih htail x hx
        exact ⟨ev', List.mem_cons_of_mem ev hev', hshape⟩

/-- Claim C10: every event returned by `getEventsForDateRange` (and hence
by `getEventsForDate`) is either a non-recurring stored record, or a
derived instance marked `isRecurringInstance` whose `parentId` is its
master's id and whose id is the master id followed by `'-'` and the
occurrence date; a recurring master record itself never appears in a query
result. -/
theorem claim10_query_result_shape (store : List Event) (s e : DateT)
    (l : List Event) (x : Event)
    (hl : getEventsForDateRange store s e = some l) (hx : x ∈ l) :
    ((isRecurring x = false ∧ x ∈ store) ∨
      (x.isRecurringInstance = true ∧ ∃ m, m ∈ store ∧ isRecurring m = true ∧
        x.parentId = some m.id ∧ x.id = m.id ++ "-" ++ fmtDate x.date)) ∧
    (∀ m, m ∈ store → isRecurring m = true → m.isRecurringInstance = false →
      x ≠ m) := by
  obtain ⟨ev, hev, hshape⟩ := collectEvents_shape hl x hx
  have hmain : (isRecurring x = false ∧ x ∈ store) ∨
      (x.isRecurringInstance = true ∧ ∃ m, m ∈ store ∧ isRecurring m = true ∧
        x.parentId = some m.id ∧ x.id = m.id ++ "-" ++ fmtDate x.date) := by
    rcases hshape with ⟨hnr, rfl⟩ | ⟨hrec, c, rfl⟩
    · exact Or.inl ⟨hnr, hev⟩
    · exact Or.inr ⟨rfl, ev, hev, hrec, rfl, rfl⟩
  refine ⟨hmain, ?_⟩
  intro m hm hmrec hmnotinst hxm
  rcases hmain with ⟨hnr, -⟩ | ⟨hinst, -⟩
  · rw [hxm] at hnr
    rw [hnr] at hmrec
    cases hmrec
  · rw [hxm] at hinst
    rw [hinst] at hmnotinst
    cases hmnotinst

/-- Witness for C10: the daily master's occurrence on 2024-01-02. -/
theorem claim10_query_result_shape_witness :
    ((isRecurring (mkOccurrence dailyMaster ⟨2024, 1, 2⟩) = false ∧
        mkOccurrence dailyMaster ⟨2024, 1, 2⟩ ∈ [dailyMaster]) ∨
      (Event.isRecurringInstance (mkOccurrence dailyMaster ⟨2024, 1, 2⟩) = true ∧
        ∃ m, m ∈ [dailyMaster] ∧ isRecurring m = true ∧
          Event.parentId (mkOccurrence dailyMaster ⟨2024, 1, 2⟩) = some m.id ∧
          Event.id (mkOccurrence dailyMaster ⟨2024, 1, 2⟩)
            = m.id ++ "-" ++ fmtDate (Event.date (mkOccurrence dailyMaster ⟨2024, 1, 2⟩)))) ∧
    (∀ m, m ∈ [dailyMaster] → isRecurring m = true →
      m.isRecurringInstance = false → mkOccurrence dailyMaster ⟨2024, 1, 2⟩ ≠ m) :=
  claim10_query_result_shape [dailyMaster] ⟨2024, 1, 2⟩ ⟨2024, 1, 2⟩
    [mkOccurrence dailyMaster ⟨2024, 1, 2⟩]
    (mkOccurrence dailyMaster ⟨2024, 1, 2⟩) (by decide) (by decide)

/-! ## Calendar arithmetic facts -/

theorem daysInMonth_ge (y m : Int) : 28 ≤ daysInMonth y m := by
  unfold daysInMonth
  split_ifs <;> omega

theorem daysInMonth_le (y m : Int) : daysInMonth y m ≤ 31 := by
  unfold daysInMonth
  split_ifs <;> omega

theorem daysInMonth_twelve (y : Int) : daysInMonth y 12 = 31 := by
  norm_num [daysInMonth]

theorem validDate_nextDay {c : DateT} (hv : ValidDate c) :
    ValidDate (nextDay c) := by
  have g1 := daysInMonth_ge c.y (c.m + 1)
  have g2 := daysInMonth_ge (c.y + 1) 1
  unfold ValidDate nextDay at *
  split_ifs <;> dsimp only <;> omega

theorem validDate_prevDay {c : DateT} (hv : ValidDate c) :
    ValidDate (prevDay c) := by
  have g1 := daysInMonth_ge c.y (c.m - 1)
  have g2 := daysInMonth_twelve (c.y - 1)
  have g3 := daysInMonth_ge (c.y - 1) 12
  unfold ValidDate prevDay at *
  split_ifs <;> dsimp only <;> omega

theorem validDate_addDaysN {c : DateT} (hv : ValidDate c) (n : Nat) :
    ValidDate (addDaysN c n) := by
  induction n with
  | zero => exact hv
  | succ n ih => exact validDate_nextDay ih

theorem validDate_subDaysN {c : DateT} (hv : ValidDate c) (n : Nat) :
    ValidDate (subDaysN c n) := by
  induction n with
  | zero => exact hv
  | succ n ih => exact validDate_prevDay ih

theorem rank_mono {a b : DateT} (ha : ValidDate a) (hb : ValidDate b)
    (h : dateLeP a b) : rank a ≤ rank b := by
  have la := daysInMonth_le a.y a.m
  have lb := daysInMonth_le b.y b.m
  unfold ValidDate rank dateLeP at *
  omega

theorem dateLtP_of_rank_lt {a b : DateT} (ha : ValidDate a) (hb : ValidDate b)
    (h : rank a < rank b) : dateLtP a b := by
  by_contra hc
  have hba : dateLeP b a := by
    unfold dateLtP at hc
    unfold dateLeP
    omega
  have := rank_mono hb ha hba
  omega

theorem rank_nextDay {c : DateT} (hv : ValidDate c) :
    rank c + 1 ≤ rank (nextDay c) := by
  have l1 := daysInMonth_le c.y c.m
  unfold ValidDate rank nextDay at *
  split_ifs <;> dsimp only <;> omega

theorem rank_prevDay {c : DateT} (hv : ValidDate c) :
    rank (prevDay c) + 1 ≤ rank c := by
  have l1 := daysInMonth_le c.y (c.m - 1)
  unfold ValidDate rank prevDay at *
  split_ifs <;> dsimp only <;> omega

theorem rank_addDaysN {c : DateT} (hv : ValidDate c) (n : Nat) :
    rank c + n ≤ rank (addDaysN c n) := by
  induction n with
  | zero => simp [addDaysN]
  | succ n ih =>
      have hvn := validDate_addDaysN hv n
      have := rank_nextDay hvn
      unfold addDaysN
      push_cast
      push_cast at ih
      omega

theorem rank_subDaysN {c : DateT} (hv : ValidDate c) (n : Nat) :
    rank (subDaysN c n) + n ≤ rank c := by
  induction n with
  | zero => simp [subDaysN]
  | succ n ih =>
      have hvn := validDate_subDaysN hv n
      have := rank_prevDay hvn
      unfold subDaysN
      push_cast
      push_cast at ih
      omega

theorem addMonthsI_up {c : DateT} (hv : ValidDate c) {k : Int} (hk : 1 ≤ k) :
    ValidDate (addMonthsI c k) ∧ rank c < rank (addMonthsI c k) := by
  have g28 := daysInMonth_ge ((12 * c.y + (c.m - 1) + k) / 12)
    ((12 * c.y + (c.m - 1) + k) % 12 + 1)
  have g31 := daysInMonth_le ((12 * c.y + (c.m - 1) + k) / 12)
    ((12 * c.y + (c.m - 1) + k) % 12 + 1)
  have l31 := daysInMonth_le c.y c.m
  unfold ValidDate rank addMonthsI at *
  dsimp only
  rw [min_def]
  split_ifs <;> omega

theorem addMonthsI_down {c : DateT} (hv : ValidDate c) {k : Int} (hk : k ≤ -1) :
    ValidDate (addMonthsI c k) ∧ rank (addMonthsI c k) < rank c := by
  have g28 := daysInMonth_ge ((12 * c.y + (c.m - 1) + k) / 12)
    ((12 * c.y + (c.m - 1) + k) % 12 + 1)
  have g31 := daysInMonth_le ((12 * c.y + (c.m - 1) + k) / 12)
    ((12 * c.y + (c.m - 1) + k) % 12 + 1)
  have l31 := daysInMonth_le c.y c.m
  unfold ValidDate rank addMonthsI at *
  dsimp only
  rw [min_def]
  split_ifs <;> omega

/-! ## Weekday arithmetic -/

theorem dayOfWeek_bounds (c : DateT) : 0 ≤ dayOfWeek c ∧ dayOfWeek c < 7 := by
  unfold dayOfWeek
  omega

/-- Stepping within a month advances the weekday by one. -/
theorem dow_day_step (y m d : Int) :
    dayOfWeek ⟨y, m, d + 1⟩ = (dayOfWeek ⟨y, m, d⟩ + 1) % 7 := by
  have h1 : sakamotoYear ⟨y, m, d + 1⟩ = sakamotoYear ⟨y, m, d⟩ := rfl
  unfold dayOfWeek dowAcc
  rw [h1]
  dsimp only
  omega

/-- Stepping from the last day of February to March 1 advances the weekday
by one; the Sakamoto year shift absorbs the leap-day case split. -/
theorem dow_feb_step (y : Int) :
    dayOfWeek ⟨y, 3, 1⟩ = (dayOfWeek ⟨y, 2, daysInMonth y 2⟩ + 1) % 7 := by
  simp only [dayOfWeek, dowAcc, sakamotoYear, monthOffset, daysInMonth,
    isLeap, decide_eq_true_eq]
  norm_num
  split_ifs with hl
  · rcases hl with ⟨h4, h100⟩ | h400
    · have a4 : (y - 1) / 4 = y / 4 - 1 := by omega
      have a100 : (y - 1) / 100 = y / 100 := by omega
      have a400 : (y - 1) / 400 = y / 400 := by
        have hn : ¬ (400:Int) ∣ y := fun h => h100 (dvd_trans (by norm_num) h)
        omega
      rw [a4, a100, a400]
      omega
    · have h4 : (4:Int) ∣ y := dvd_trans (by norm_num) h400
      have h100 : (100:Int) ∣ y := dvd_trans (by norm_num) h400
      have a4 : (y - 1) / 4 = y / 4 - 1 := by omega
      have a100 : (y - 1) / 100 = y / 100 - 1 := by omega
      have a400 : (y - 1) / 400 = y / 400 - 1 := by omega
      rw [a4, a100, a400]
      omega
  · by_cases h4 : (4:Int) ∣ y
    · have h100 : (100:Int) ∣ y := by
        by_contra hc
        exact hl (Or.inl ⟨h4, hc⟩)
      have h400 : ¬ (400:Int) ∣ y := fun hc => hl (Or.inr hc)
      have a4 : (y - 1) / 4 = y / 4 - 1 := by omega
      have a100 : (y - 1) / 100 = y / 100 - 1 := by omega
      have a400 : (y - 1) / 400 = y / 400 := by omega
      rw [a4, a100, a400]
      omega
    · have h100 : ¬ (100:Int) ∣ y := fun hc => h4 (dvd_trans (by norm_num) hc)
      have h400 : ¬ (400:Int) ∣ y := fun hc => h4 (dvd_trans (by norm_num) hc)
      have a4 : (y - 1) / 4 = y / 4 := by omega
      have a100 : (y - 1) / 100 = y / 100 := by omega
      have a400 : (y - 1) / 400 = y / 400 := by omega
      rw [a4, a100, a400]
      omega

/-- Stepping from the last day of a month (other than December) to the first
day of the next advances the weekday by one. -/
theorem dow_month_step (y m : Int) (hm1 : 1 ≤ m) (hm2 : m ≤ 11) :
    dayOfWeek ⟨y, m + 1, 1⟩ = (dayOfWeek ⟨y, m, daysInMonth y m⟩ + 1) % 7 := by
  by_cases h2 : m = 2
  · subst h2
    exact dow_feb_step y
  · interval_cases m <;>
      first
        | exact absurd rfl h2
        | (simp only [dayOfWeek, dowAcc, sakamotoYear, monthOffset,
             daysInMonth, isLeap, decide_eq_true_eq] <;> norm_num <;> omega)

/-- Stepping from December 31 to January 1 advances the weekday by one. -/
theorem dow_year_step (y : Int) :
    dayOfWeek ⟨y + 1, 1, 1⟩ = (dayOfWeek ⟨y, 12, 31⟩ + 1) % 7 := by
  simp only [dayOfWeek, dowAcc, sakamotoYear, monthOffset]
  norm_num
  omega

/-- The weekday of the calendar successor of a valid date. -/
theorem dayOfWeek_nextDay {c : DateT} (hv : ValidDate c) :
    dayOfWeek (nextDay c) = (dayOfWeek c + 1) % 7 := by
  obtain ⟨hm1, hm2, hd1, hd2⟩ := hv
  have hceta : c = ⟨c.y, c.m, c.d⟩ := rfl
  unfold nextDay
  by_cases hd : c.d < daysInMonth c.y c.m
  · rw [if_pos hd]
    rw [hceta]
    exact dow_day_step c.y c.m c.d
  · rw [if_neg hd]
    have hdeq : c.d = daysInMonth c.y c.m := by omega
    by_cases hm : c.m < 12
    · rw [if_pos hm]
      have := dow_month_step c.y c.m hm1 (by omega)
      rw [hceta, hdeq]
      exact this
    · have hm12 : c.m = 12 := by omega
      rw [if_neg hm]
      have hd31 : c.d = 31 := by rw [hdeq, hm12, daysInMonth_twelve]
      rw [hceta, hm12, hd31]
      exact dow_year_step c.y

/-- Weekday after several days. -/
theorem dayOfWeek_addDaysN {c : DateT} (hv : ValidDate c) (n : Nat) :
    dayOfWeek (addDaysN c n) = (dayOfWeek c + n) % 7 := by
  induction n with
  | zero =>
      unfold addDaysN dayOfWeek
      omega
  | succ n ih =>
      unfold addDaysN
      rw [dayOfWeek_nextDay (validDate_addDaysN hv n), ih]
      push_cast
      omega

theorem addDaysN_nextDay (c : DateT) (n : Nat) :
    addDaysN (nextDay c) n = nextDay (addDaysN c n) := by
  induction n with
  | zero => rfl
  | succ n ih =>
      unfold addDaysN
      rw [ih]

/-! ## The weekly forward scan -/

/-- A successful scan lands at a later (or equal) valid date. -/
theorem findNextDow_rank {f : Nat} {d0 nd : DateT} {days : List Int}
    (hv : ValidDate d0) (h : findNextDow f d0 days = some nd) :
    ValidDate nd ∧ rank d0 ≤ rank nd := by
  induction f generalizing d0 with
  | zero => cases h
  | succ f ih =>
      unfold findNextDow at h
      by_cases hc : days.contains (dayOfWeek d0) = true
      · rw [if_pos hc] at h
        cases h
        exact ⟨hv, le_refl _⟩
      · rw [if_neg hc] at h
        obtain ⟨hvnd, hr⟩ := ih (validDate_nextDay hv) h
        have := rank_nextDay hv
        exact ⟨hvnd, by omega⟩

/-- If some scanned day hits the set, the scan succeeds. -/
theorem findNextDow_isSome_of_hit {f : Nat} {d0 : DateT} {days : List Int}
    (hhit : ∃ j : Nat, j < f ∧ days.contains (dayOfWeek (addDaysN d0 j)) = true) :
    (findNextDow f d0 days).isSome := by
  induction f generalizing d0 with
  | zero =>
      obtain ⟨j, hj, -⟩ := hhit
      omega
  | succ f ih =>
      unfold findNextDow
      by_cases hc : days.contains (dayOfWeek d0) = true
      · rw [if_pos hc]
        rfl
      · rw [if_neg hc]
        apply ih
        obtain ⟨j, hj, hcont⟩ := hhit
        cases j with
        | zero => exact absurd hcont hc
        | succ j =>
            refine ⟨j, by omega, ?_⟩
            rw [addDaysN_nextDay]
            exact hcont

/-- With a reachable weekday ordinal in the set, the seven-day scan
succeeds from any valid date. -/
theorem findNextDow_isSome {d0 : DateT} {days : List Int} (hv : ValidDate d0)
    (hw : ∃ w ∈ days, 0 ≤ w ∧ w < 7) :
    (findNextDow 7 d0 days).isSome := by
  obtain ⟨w, hwmem, hw0, hw7⟩ := hw
  apply findNextDow_isSome_of_hit
  have hb := dayOfWeek_bounds d0
  refine ⟨((w - dayOfWeek d0) % 7).toNat, by omega, ?_⟩
  have hcast : (((w - dayOfWeek d0) % 7).toNat : Int) = (w - dayOfWeek d0) % 7 := by
    omega
  rw [dayOfWeek_addDaysN hv, hcast]
  have hdw : (dayOfWeek d0 + (w - dayOfWeek d0) % 7) % 7 = w := by omega
  rw [hdw]
  exact List.elem_eq_true_of_mem hwmem

/-! ## Classification of the cursor advance -/

theorem mkOccurrence_date (ev : Event) (c : DateT) :
    (mkOccurrence ev c).date = c := rfl

theorem advanceCursor_daily {r : Recurrence} (ht : r.rtype = RecType.daily)
    (c : DateT) :
    advanceCursor r c = StepRes.next (addDaysI c (effInterval r)) := by
  unfold advanceCursor
  simp only [ht]

theorem advanceCursor_custom {r : Recurrence} (ht : r.rtype = RecType.custom)
    (c : DateT) :
    advanceCursor r c = StepRes.next (addDaysI c (effInterval r)) := by
  unfold advanceCursor
  simp only [ht]

theorem advanceCursor_monthly {r : Recurrence} (ht : r.rtype = RecType.monthly)
    (c : DateT) :
    advanceCursor r c = StepRes.next (addMonthsI c (effInterval r)) := by
  unfold advanceCursor
  simp only [ht]

theorem advanceCursor_weekly_scan {r : Recurrence} {dw : Int} {ds : List Int}
    (ht : r.rtype = RecType.weekly) (hdw : r.daysOfWeek = some (dw :: ds))
    (c : DateT) :
    advanceCursor r c =
      (match findNextDow 7 (nextDay c) (dw :: ds) with
       | some nd => StepRes.next nd
       | Option.none => StepRes.hang) := by
  unfold advanceCursor
  simp only [ht, hdw]

theorem advanceCursor_weekly_none {r : Recurrence}
    (ht : r.rtype = RecType.weekly) (hdw : r.daysOfWeek = Option.none)
    (c : DateT) :
    advanceCursor r c = StepRes.next (addDaysI c (7 * effInterval r)) := by
  unfold advanceCursor
  simp only [ht, hdw]

theorem advanceCursor_weekly_nil {r : Recurrence}
    (ht : r.rtype = RecType.weekly) (hdw : r.daysOfWeek = some [])
    (c : DateT) :
    advanceCursor r c = StepRes.next (addDaysI c (7 * effInterval r)) := by
  unfold advanceCursor
  simp only [ht, hdw]

theorem addDaysI_up {c : DateT} (hv : ValidDate c) {i : Int} (hi : 1 ≤ i) :
    ValidDate (addDaysI c i) ∧ rank c < rank (addDaysI c i) := by
  unfold addDaysI
  rw [if_pos (by omega : (0:Int) ≤ i)]
  refine ⟨validDate_addDaysN hv _, ?_⟩
  have := rank_addDaysN hv i.toNat
  omega

theorem addDaysI_down {c : DateT} (hv : ValidDate c) {i : Int} (hi : i ≤ -1) :
    ValidDate (addDaysI c i) ∧ rank (addDaysI c i) < rank c := by
  unfold addDaysI
  rw [if_neg (by omega : ¬ (0:Int) ≤ i)]
  refine ⟨validDate_subDaysN hv _, ?_⟩
  have := rank_subDaysN hv (-i).toNat
  omega

theorem effInterval_ne_zero (r : Recurrence) : effInterval r ≠ 0 := by
  unfold effInterval
  cases r.interval with
  | none =>
      show (1:Int) ≠ 0
      omega
  | some i =>
      show (if i = 0 then (1:Int) else i) ≠ 0
      split_ifs <;> omega

/-- An advance that, from any valid cursor, moves strictly forward and
preserves validity. -/
def StepUp (r : Recurrence) : Prop :=
  ∀ c c', ValidDate c → advanceCursor r c = StepRes.next c' →
    ValidDate c' ∧ rank c < rank c'

/-- An advance that, from any valid cursor, always yields a strictly
earlier valid cursor. -/
def StepDown (r : Recurrence) : Prop :=
  ∀ c, ValidDate c → ∃ c', advanceCursor r c = StepRes.next c' ∧
    ValidDate c' ∧ rank c' < rank c

/-- Every rule with a type other than `none` advances either strictly
forward on every step or strictly backward on every step. -/
theorem stepUp_or_stepDown (r : Recurrence) (hne : r.rtype ≠ RecType.rnone) :
    StepUp r ∨ StepDown r := by
  have hi0 := effInterval_ne_zero r
  cases ht : r.rtype with
  | rnone => exact absurd ht hne
  | daily =>
      by_cases hi : 1 ≤ effInterval r
      · left
        intro c c' hv hadv
        rw [advanceCursor_daily ht] at hadv
        cases hadv
        exact addDaysI_up hv hi
      · right
        intro c hv
        obtain ⟨h1, h2⟩ := addDaysI_down hv (i := effInterval r) (by omega)
        exact ⟨_, advanceCursor_daily ht c, h1, h2⟩
  | custom =>
      by_cases hi : 1 ≤ effInterval r
      · left
        intro c c' hv hadv
        rw [advanceCursor_custom ht] at hadv
        cases hadv
        exact addDaysI_up hv hi
      · right
        intro c hv
        obtain ⟨h1, h2⟩ := addDaysI_down hv (i := effInterval r) (by omega)
        exact ⟨_, advanceCursor_custom ht c, h1, h2⟩
  | monthly =>
      by_cases hi : 1 ≤ effInterval r
      · left
        intro c c' hv hadv
        rw [advanceCursor_monthly ht] at hadv
        cases hadv
        exact addMonthsI_up hv hi
      · right
        intro c hv
        obtain ⟨h1, h2⟩ := addMonthsI_down hv (k := effInterval r) (by omega)
        exact ⟨_, advanceCursor_monthly ht c, h1, h2⟩
  | weekly =>
      cases hdw : r.daysOfWeek with
      | none =>
          by_cases hi : 1 ≤ effInterval r
          · left
            intro c c' hv hadv
            rw [advanceCursor_weekly_none ht hdw] at hadv
            cases hadv
            exact addDaysI_up hv (by omega)
          · right
            intro c hv
            obtain ⟨h1, h2⟩ :=
              addDaysI_down hv (i := 7 * effInterval r) (by omega)
            exact ⟨_, advanceCursor_weekly_none ht hdw c, h1, h2⟩
      | some ds =>
          cases ds with
          | nil =>
              by_cases hi : 1 ≤ effInterval r
              · left
                intro c c' hv hadv
                rw [advanceCursor_weekly_nil ht hdw] at hadv
                cases hadv
                exact addDaysI_up hv (by omega)
              · right
                intro c hv
                obtain ⟨h1, h2⟩ :=
                  addDaysI_down hv (i := 7 * effInterval r) (by omega)
                exact ⟨_, advanceCursor_weekly_nil ht hdw c, h1, h2⟩
          | cons dw ds =>
              left
              intro c c' hv hadv
              rw [advanceCursor_weekly_scan ht hdw] at hadv
              cases hf : findNextDow 7 (nextDay c) (dw :: ds) with
              | none => rw [hf] at hadv; cases hadv
              | some nd =>
                  rw [hf] at hadv
                  cases hadv
                  obtain ⟨hvnd, hr⟩ :=
                    findNextDow_rank (validDate_nextDay hv) hf
                  have := rank_nextDay hv
                  exact ⟨hvnd, by omega⟩

/-! ## Claim C4: expansion bounds -/

/-- With a forward-moving advance, every emitted occurrence date lies in
the window and the recurrence bound, at or after the starting cursor. -/
theorem genAux_bounds {ev : Event} {r : Recurrence} {endRec s e : DateT}
    (hup : StepUp r) :
    ∀ {fuel : Nat} {cursor : DateT} {l : List Event}, ValidDate cursor →
      genAux ev r endRec s e fuel cursor = some l →
      ∀ x ∈ l, dateLeP s x.date ∧ dateLeP cursor x.date ∧
        dateLeP x.date endRec ∧ dateLeP x.date e := by
  intro fuel
  induction fuel with
  | zero =>
      intro cursor l hv h
      rw [genAux_zero] at h
      cases h
  | succ f ih =>
      intro cursor l hv h
      by_cases hg : (dateLe cursor endRec ∧ dateLe cursor e)
      · have hg1 := (dateLe_iff _ _).mp hg.1
        have hg2 := (dateLe_iff _ _).mp hg.2
        cases hadv : advanceCursor r cursor with
        | next c' =>
            rw [genAux_next ev s f hg hadv] at h
            cases hrec : genAux ev r endRec s e f c' with
            | none => rw [hrec] at h; cases h
            | some rest =>
                rw [hrec] at h
                simp only [Option.map_some', Option.some.injEq] at h
                subst h
                intro x hx
                rcases List.mem_append.mp hx with hx | hx
                · obtain ⟨rfl, hs⟩ := mem_emitAt hx
                  rw [mkOccurrence_date]
                  exact ⟨hs, dateLeP_refl cursor, hg1, hg2⟩
                · obtain ⟨hvc', hr⟩ := hup cursor c' hv hadv
                  have hlex := dateLtP_of_rank_lt hv hvc' hr
                  obtain ⟨h1, h2, h3, h4⟩ := ih hvc' hrec x hx
                  exact ⟨h1, dateLtP_le (dateLtP_trans_le hlex h2), h3, h4⟩
        | stop =>
            rw [genAux_stop ev s f hg hadv] at h
            simp only [Option.some.injEq] at h
            subst h
            intro x hx
            obtain ⟨rfl, hs⟩ := mem_emitAt hx
            rw [mkOccurrence_date]
            exact ⟨hs, dateLeP_refl cursor, hg1, hg2⟩
        | hang => rw [genAux_hang ev s f hg hadv] at h; cases h
      · rw [genAux_exit ev r s f hg] at h
        simp only [Option.some.injEq] at h
        subst h
        intro x hx
        cases hx

/-- With a backward-moving advance, a loop that starts inside its guard
never finishes. -/
theorem genAux_down_none {ev : Event} {r : Recurrence} {endRec s e : DateT}
    (hdown : StepDown r) :
    ∀ {fuel : Nat} {cursor : DateT}, ValidDate cursor →
      (dateLe cursor endRec ∧ dateLe cursor e) →
      genAux ev r endRec s e fuel cursor = Option.none := by
  intro fuel
  induction fuel with
  | zero =>
      intro cursor _ _
      exact genAux_zero ev r endRec s e cursor
  | succ f ih =>
      intro cursor hv hg
      obtain ⟨c', hadv, hvc', hr⟩ := hdown cursor hv
      rw [genAux_next ev s f hg hadv]
      have hlex := dateLtP_of_rank_lt hvc' hv hr
      have hg' : (dateLe c' endRec ∧ dateLe c' e) := by
        constructor <;> rw [dateLe_iff]
        · exact dateLtP_le (dateLtP_trans_le hlex ((dateLe_iff _ _).mp hg.1))
        · exact dateLtP_le (dateLtP_trans_le hlex ((dateLe_iff _ _).mp hg.2))
      rw [ih hvc' hg']
      rfl

/-- Claim C4: every instance emitted by the expander for a recurring master
has a date no earlier than the window start and the master's anchor date,
no later than the window end, and no later than the recurrence `endDate`
when one is set. -/
theorem claim4_expansion_bounds (ev : Event) (r : Recurrence) (s e : DateT)
    (l : List Event) (x : Event)
    (hr : ev.recurrence = some r) (hne : r.rtype ≠ RecType.rnone)
    (hv : ValidDate ev.date)
    (h : generateRecurringEvents ev s e = some l) (hx : x ∈ l) :
    dateLeP s x.date ∧ dateLeP ev.date x.date ∧ dateLeP x.date e ∧
      (∀ ed, r.endDate = some ed → dateLeP x.date ed) := by
  rw [generateRecurringEvents_eq_genAux s e hr hne] at h
  rcases stepUp_or_stepDown r hne with hup | hdown
  · obtain ⟨h1, h2, h3, h4⟩ := genAux_bounds hup hv h x hx
    refine ⟨h1, h2, h4, ?_⟩
    intro ed hed
    rw [hed] at h3
    simpa using h3
  · by_cases hg : (dateLe ev.date (r.endDate.getD e) ∧ dateLe ev.date e)
    · rw [genAux_down_none hdown hv hg] at h
      cases h
    · have hfuel : genFuel ev.date e = (rank e - rank ev.date).toNat + 1 + 1 := rfl
      rw [hfuel, genAux_exit ev r s _ hg] at h
      simp only [Option.some.injEq] at h
      subst h
      cases hx

/-- Witness for C4: the daily master expanded over a two-day window. -/
theorem claim4_expansion_bounds_witness :
    dateLeP ⟨2024, 1, 2⟩ (mkOccurrence dailyMaster ⟨2024, 1, 2⟩).date ∧
    dateLeP dailyMaster.date (mkOccurrence dailyMaster ⟨2024, 1, 2⟩).date ∧
    dateLeP (mkOccurrence dailyMaster ⟨2024, 1, 2⟩).date ⟨2024, 1, 3⟩ ∧
    (∀ ed, Recurrence.endDate ⟨RecType.daily, some 1, Option.none, Option.none⟩
      = some ed → dateLeP (mkOccurrence dailyMaster ⟨2024, 1, 2⟩).date ed) :=
  claim4_expansion_bounds dailyMaster
    ⟨RecType.daily, some 1, Option.none, Option.none⟩
    ⟨2024, 1, 2⟩ ⟨2024, 1, 3⟩
    [mkOccurrence dailyMaster ⟨2024, 1, 2⟩, mkOccurrence dailyMaster ⟨2024, 1, 3⟩]
    (mkOccurrence dailyMaster ⟨2024, 1, 2⟩)
    rfl (by decide) (by decide) (by decide) (by decide)

/-! ## Claim C5: the weekly `daysOfWeek` advance -/

/-- A successful scan lands on the first scanned date whose weekday is in
the set. -/
theorem findNextDow_spec {f : Nat} {d0 nd : DateT} {days : List Int}
    (h : findNextDow f d0 days = some nd) :
    ∃ k : Nat, k < f ∧ nd = addDaysN d0 k ∧
      days.contains (dayOfWeek nd) = true ∧
      ∀ j : Nat, j < k → days.contains (dayOfWeek (addDaysN d0 j)) = false := by
  induction f generalizing d0 with
  | zero => cases h
  | succ f ih =>
      unfold findNextDow at h
      by_cases hc : days.contains (dayOfWeek d0) = true
      · rw [if_pos hc] at h
        cases h
        exact ⟨0, by omega, rfl, hc, by intro j hj; omega⟩
      · rw [if_neg hc] at h
        obtain ⟨k, hk, hnd, hcont, hmin⟩ := ih h
        refine ⟨k + 1, by omega, ?_, hcont, ?_⟩
        · rw [hnd, addDaysN_nextDay]
          rfl
        · intro j hj
          cases j with
          | zero =>
              show days.contains (dayOfWeek d0) = false
              cases hb : days.contains (dayOfWeek d0)
              · rfl
              · exact absurd hb hc
          | succ j =>
              have : addDaysN d0 (j + 1) = addDaysN (nextDay d0) j := by
                rw [addDaysN_nextDay]
                rfl
              rw [this]
              exact hmin j (by omega)

/-- The weekly recurrence master of the spec's scenario: anchored on
Monday 2024-01-01 with `daysOfWeek = [1, 3]` (Monday, Wednesday). -/
def weeklyMaster : Event :=
  mkEv "m" ⟨2024, 1, 1⟩ (some 540) Option.none
    (some ⟨RecType.weekly, Option.none, some [1, 3], Option.none⟩)

/-- Claim C5: for a weekly rule with non-empty `daysOfWeek`, the expander's
advance scans forward one day at a time from the day after the cursor and
stops at the first date whose weekday is in the set (so the landing day is
1 to 7 days ahead, its weekday is in the set, and no strictly earlier
scanned day's weekday is); the advance ignores `interval` entirely; and the
spec's scenario — master Monday 2024-01-01, `daysOfWeek` {Mon, Wed}, window
2024-01-01 to 2024-01-10 — yields instances exactly on 01-01, 01-03, 01-08
and 01-10. -/
theorem claim5_weekly_scan :
    (∀ (r : Recurrence) (c nd : DateT) (dw : Int) (ds : List Int),
      r.rtype = RecType.weekly → r.daysOfWeek = some (dw :: ds) →
      advanceCursor r c = StepRes.next nd →
      ∃ k : Nat, 1 ≤ k ∧ k ≤ 7 ∧ nd = addDaysN c k ∧
        (dw :: ds).contains (dayOfWeek nd) = true ∧
        ∀ j : Nat, 1 ≤ j → j < k →
          (dw :: ds).contains (dayOfWeek (addDaysN c j)) = false) ∧
    (∀ (i1 i2 : Option Int) (dw : Int) (ds : List Int) (ed : Option DateT)
      (c : DateT),
      advanceCursor ⟨RecType.weekly, i1, some (dw :: ds), ed⟩ c
        = advanceCursor ⟨RecType.weekly, i2, some (dw :: ds), ed⟩ c) ∧
    dayOfWeek ⟨2024, 1, 1⟩ = 1 ∧
    (generateRecurringEvents weeklyMaster ⟨2024, 1, 1⟩ ⟨2024, 1, 10⟩).map
        (List.map Event.date)
      = some [⟨2024, 1, 1⟩, ⟨2024, 1, 3⟩, ⟨2024, 1, 8⟩, ⟨2024, 1, 10⟩] := by
  refine ⟨?_, ?_, by decide, by decide⟩
  · intro r c nd dw ds ht hdw hadv
    rw [advanceCursor_weekly_scan ht hdw] at hadv
    cases hf : findNextDow 7 (nextDay c) (dw :: ds) with
    | none => rw [hf] at hadv; cases hadv
    | some nd' =>
        rw [hf] at hadv
        cases hadv
        obtain ⟨k, hk7, hnd, hcont, hmin⟩ := findNextDow_spec hf
        refine ⟨k + 1, by omega, by omega, ?_, hcont, ?_⟩
        · rw [hnd, addDaysN_nextDay]
          rfl
        · intro j hj1 hjk
          cases j with
          | zero => omega
          | succ j =>
              have : addDaysN c (j + 1) = addDaysN (nextDay c) j := by
                rw [addDaysN_nextDay]
                rfl
              rw [this]
              exact hmin j (by omega)
  · intro i1 i2 dw ds ed c
    rfl

/-- Witness for C5: the concrete advance from Monday 2024-01-01 lands on
Wednesday 2024-01-03. -/
theorem claim5_weekly_scan_witness :
    ∃ k : Nat, 1 ≤ k ∧ k ≤ 7 ∧
      (⟨2024, 1, 3⟩ : DateT) = addDaysN ⟨2024, 1, 1⟩ k ∧
      ([1, 3] : List Int).contains (dayOfWeek ⟨2024, 1, 3⟩) = true ∧
      ∀ j : Nat, 1 ≤ j → j < k →
        ([1, 3] : List Int).contains (dayOfWeek (addDaysN ⟨2024, 1, 1⟩ j))
          = false :=
  claim5_weekly_scan.1 ⟨RecType.weekly, Option.none, some [1, 3], Option.none⟩
    ⟨2024, 1, 1⟩ ⟨2024, 1, 3⟩ 1 [3] rfl rfl (by decide)

/-! ## Claim C9: termination of the expansion -/

/-- Under the claim's side conditions the advance is total, forward-moving
and validity-preserving from every valid cursor. -/
theorem stepForwardTotal (r : Recurrence) (hne : r.rtype ≠ RecType.rnone)
    (hint : ∀ i, r.interval = some i → 0 ≤ i)
    (hweek : r.rtype = RecType.weekly → ∀ dw ds,
      r.daysOfWeek = some (dw :: ds) → ∃ w ∈ (dw :: ds), 0 ≤ w ∧ w < 7) :
    ∀ c, ValidDate c → ∃ c', advanceCursor r c = StepRes.next c' ∧
      ValidDate c' ∧ rank c < rank c' := by
  have hpos : 1 ≤ effInterval r := by
    unfold effInterval
    cases hi : r.interval with
    | none =>
        show (1:Int) ≤ 1
        omega
    | some i =>
        have := hint i hi
        show (1:Int) ≤ if i = 0 then 1 else i
        split_ifs <;> omega
  intro c hv
  cases ht : r.rtype with
  | rnone => exact absurd ht hne
  | daily =>
      obtain ⟨h1, h2⟩ := addDaysI_up hv hpos
      exact ⟨_, advanceCursor_daily ht c, h1, h2⟩
  | custom =>
      obtain ⟨h1, h2⟩ := addDaysI_up hv hpos
      exact ⟨_, advanceCursor_custom ht c, h1, h2⟩
  | monthly =>
      obtain ⟨h1, h2⟩ := addMonthsI_up hv hpos
      exact ⟨_, advanceCursor_monthly ht c, h1, h2⟩
  | weekly =>
      cases hdw : r.daysOfWeek with
      | none =>
          obtain ⟨h1, h2⟩ := addDaysI_up hv (i := 7 * effInterval r) (by omega)
          exact ⟨_, advanceCursor_weekly_none ht hdw c, h1, h2⟩
      | some ds =>
          cases ds with
          | nil =>
              obtain ⟨h1, h2⟩ :=
                addDaysI_up hv (i := 7 * effInterval r) (by omega)
              exact ⟨_, advanceCursor_weekly_nil ht hdw c, h1, h2⟩
          | cons dw ds =>
              have hs := findNextDow_isSome (validDate_nextDay hv)
                (hweek ht dw ds hdw)
              cases hf : findNextDow 7 (nextDay c) (dw :: ds) with
              | none => rw [hf] at hs; cases hs
              | some nd =>
                  obtain ⟨hvnd, hr⟩ :=
                    findNextDow_rank (validDate_nextDay hv) hf
                  have := rank_nextDay hv
                  refine ⟨nd, ?_, hvnd, by omega⟩
                  rw [advanceCursor_weekly_scan ht hdw, hf]

/-- With a total forward advance, fuel proportional to the rank distance to
the window end always suffices. -/
theorem genAux_isSome {ev : Event} {r : Recurrence} {endRec s e : DateT}
    (hstep : ∀ c, ValidDate c → ∃ c', advanceCursor r c = StepRes.next c' ∧
      ValidDate c' ∧ rank c < rank c')
    (hve : ValidDate e) :
    ∀ (fuel : Nat) (cursor : DateT), ValidDate cursor →
      (rank e - rank cursor).toNat + 2 ≤ fuel →
      (genAux ev r endRec s e fuel cursor).isSome := by
  intro fuel
  induction fuel with
  | zero =>
      intro cursor _ hb
      omega
  | succ f ih =>
      intro cursor hv hb
      by_cases hg : (dateLe cursor endRec ∧ dateLe cursor e)
      · obtain ⟨c', hadv, hvc', hr⟩ := hstep cursor hv
        rw [genAux_next ev s f hg hadv]
        have hce : rank cursor ≤ rank e :=
          rank_mono hv hve ((dateLe_iff _ _).mp hg.2)
        have hmain : (genAux ev r endRec s e f c').isSome := by
          by_cases hre : rank c' ≤ rank e
          · exact ih c' hvc' (by omega)
          · have hnotle : ¬ dateLeP c' e := fun hle =>
              hre (rank_mono hvc' hve hle)
            have hg' : ¬ (dateLe c' endRec ∧ dateLe c' e) := fun hcon =>
              hnotle ((dateLe_iff _ _).mp hcon.2)
            cases f with
            | zero => omega
            | succ f' =>
                rw [genAux_exit ev r s f' hg']
                rfl
        cases hx : genAux ev r endRec s e f c' with
        | none => rw [hx] at hmain; cases hmain
        | some rest => rfl
      · rw [genAux_exit ev r s f hg]
        rfl

/-- Claim C9: the recurrence expansion terminates for every master with a
valid anchor date and every bounded window with a valid end, provided the
rule's interval is nonnegative or absent (zero and absent are treated as 1)
and a weekly rule with non-empty `daysOfWeek` holds at least one weekday
ordinal in 0..6; rules with no `endDate` are bounded by the window. -/
theorem claim9_expansion_terminates (ev : Event) (r : Recurrence)
    (s e : DateT) (hr : ev.recurrence = some r)
    (hint : ∀ i, r.interval = some i → 0 ≤ i)
    (hweek : r.rtype = RecType.weekly → ∀ dw ds,
      r.daysOfWeek = some (dw :: ds) → ∃ w ∈ (dw :: ds), 0 ≤ w ∧ w < 7)
    (hv : ValidDate ev.date) (hve : ValidDate e) :
    (generateRecurringEvents ev s e).isSome := by
  by_cases hne : r.rtype = RecType.rnone
  · unfold generateRecurringEvents
    rw [hr]
    simp only [if_pos hne]
    rfl
  · rw [generateRecurringEvents_eq_genAux s e hr hne]
    exact genAux_isSome (stepForwardTotal r hne hint hweek) hve
      (genFuel ev.date e) ev.date hv (le_refl _)

/-- Witness for C9: the weekly scenario master over an open-ended rule
bounded only by the window. -/
theorem claim9_expansion_terminates_witness :
    (generateRecurringEvents weeklyMaster ⟨2024, 1, 1⟩ ⟨2024, 1, 10⟩).isSome :=
  claim9_expansion_terminates weeklyMaster
    ⟨RecType.weekly, Option.none, some [1, 3], Option.none⟩
    ⟨2024, 1, 1⟩ ⟨2024, 1, 10⟩ rfl
    (by intro i h; cases h)
    (by
      intro _ dw ds h
      cases h
      exact ⟨1, by decide, by decide⟩)
    (by decide) (by decide)

end EventCalendar
